import Mathlib

/-!
Verification of the core components of the whatsapp-stock-bot repository.

Two components are embedded, faithfully to the JavaScript source:

* the outbound segmenter `splitMessageIntelligently` together with the
  part-prefixing logic of `sendWhatsAppMessage` (whatsapp-bot-server.js),
* the preference resolver `UserManager.handleLanguagePreference` with its
  persistence helpers `getUser` / `createUser` / `updateUserActivity` /
  `setLanguagePreference` (user-manager.js).

JavaScript strings are modelled as `List Char` (one entry per UTF-16-ish code
point; all inputs considered stay in the BMP so this matches `.length`,
`substring`, `lastIndexOf` and `trim` index-for-index).  The stateful SQLite
layer is modelled by explicit state passing: every SQL statement issued by the
resolver touches only the row keyed by the given identifier, so the carried
state is that single row (`Option UserRec`), together with a trace of the
statements issued and a record of which statements fail on this call.
-/

namespace WhatsAppStockBot

/-! ### JavaScript string primitives used by the segmenter -/

/-- The character class removed by JavaScript `String.prototype.trim`:
ECMAScript WhiteSpace (TAB, VT, FF, SP, NBSP, ZWNBSP and the Unicode
space separators) together with the LineTerminator characters
(LF, CR, LS, PS). -/
def isJsWhitespace (c : Char) : Bool :=
  let n := c.toNat
  n = 9 || n = 10 || n = 11 || n = 12 || n = 13 || n = 32 || n = 160 ||
  n = 0x1680 || (0x2000 ≤ n && n ≤ 0x200A) || n = 0x2028 || n = 0x2029 ||
  n = 0x202F || n = 0x205F || n = 0x3000 || n = 0xFEFF

/-- Remove leading JS whitespace (the left half of `.trim()`). -/
def trimStart (s : List Char) : List Char :=
  s.dropWhile isJsWhitespace

/-- Remove trailing JS whitespace (the right half of `.trim()`). -/
def trimEnd (s : List Char) : List Char :=
  (s.reverse.dropWhile isJsWhitespace).reverse

/-- JavaScript `s.trim()`: whitespace removed from both ends.  The two halves
act on disjoint ends, so the composition order is immaterial; we remove the
trailing whitespace first. -/
def jsTrim (s : List Char) : List Char :=
  trimStart (trimEnd s)

/-- `s` consists of JS whitespace only. -/
def wsOnly (s : List Char) : Bool :=
  s.all isJsWhitespace

/-- The pattern `pat` occurs in `s` starting at index `k`
(the full pattern, possibly extending past any search position). -/
def occursAt (s pat : List Char) (k : Nat) : Bool :=
  pat.isPrefixOf (s.drop k)

/-- JavaScript `s.lastIndexOf(pat, pos)`: the largest start index `k ≤ pos`
at which `pat` occurs in `s` (the occurrence may extend beyond `pos`);
`none` models the JS return value `-1`.  The patterns used by the segmenter
are all non-empty, and `pos` is below `s.length` at every call site, so the
JS clamping of `pos` needs no separate treatment. -/
def lastIndexOf (s pat : List Char) (pos : Nat) : Option Nat :=
  ((List.range (pos + 1)).reverse).find? (occursAt s pat)

/-! ### The outbound segmenter (`splitMessageIntelligently`) -/

/-- The ranked break-point patterns of `splitMessageIntelligently`,
most preferred first. -/
def breakPoints : List (List Char) :=
  [("\n\n---\n\n").toList, ("\n\n").toList, ("\n*").toList,
   ("\n").toList, (". ").toList, (", ").toList, (" ").toList]

/-- The body of the `for (const breakPoint of breakPoints)` loop: the first
pattern whose last occurrence at or before `maxLen` starts strictly after
70% of `maxLen` yields the split index `lastBreakIndex + breakPoint.length`.
The source compares against the floating-point product `maxLength * 0.7`;
we model it as the exact rational, i.e. `10 * k > 7 * maxLen`. -/
def findBreak : List (List Char) → List Char → Nat → Option Nat
  | [], _, _ => none
  | bp :: rest, remaining, maxLen =>
    match lastIndexOf remaining bp maxLen with
    | some k =>
      if 10 * k > 7 * maxLen then some (k + bp.length)
      else findBreak rest remaining maxLen
    | none => findBreak rest remaining maxLen

/-- The split index chosen for one iteration of the while loop:
`splitIndex` is initialised to `maxLength` and overwritten by the first
qualifying break point. -/
def chooseSplitIndex (remaining : List Char) (maxLen : Nat) : Nat :=
  match findBreak breakPoints remaining maxLen with
  | some si => si
  | none => maxLen

/-- The `while (remaining.length > maxLength)` loop of
`splitMessageIntelligently`, made total with a fuel parameter: `none` means
the fuel was exhausted while the loop guard still held.  Each iteration
emits `remaining.substring(0, splitIndex).trim()` and continues with
`remaining.substring(splitIndex).trim()`; afterwards the final remaining
text is appended if non-empty. -/
def splitLoop (maxLen : Nat) : Nat → List Char → Option (List (List Char))
  | 0, remaining =>
    if remaining.length > maxLen then none
    else if remaining.length > 0 then some [remaining] else some []
  | fuel + 1, remaining =>
    if remaining.length > maxLen then
      (splitLoop maxLen fuel (jsTrim (remaining.drop (chooseSplitIndex remaining maxLen)))).map
        (fun rest => jsTrim (remaining.take (chooseSplitIndex remaining maxLen)) :: rest)
    else if remaining.length > 0 then some [remaining] else some []

/-- `splitMessageIntelligently(text, maxLength)`.  A fuel of `text.length`
always suffices when `maxLength ≥ 1` (each iteration strictly shortens the
remaining text); `none` therefore models non-termination of the source's
while loop. -/
def splitMessageIntelligently (text : List Char) (maxLen : Nat) : Option (List (List Char)) :=
  splitLoop maxLen text.length text

/-- The while loop of the segmenter runs forever on `text` with limit
`maxLen`: no amount of fuel makes it return. -/
def divergesAt (text : List Char) (maxLen : Nat) : Prop :=
  ∀ fuel, splitLoop maxLen fuel text = none

/-! ### The outbound delivery prefixing (`sendWhatsAppMessage`) -/

/-- Decimal rendering of a number, as JS string interpolation produces it. -/
def natToChars (n : Nat) : List Char :=
  (Nat.repr n).toList

/-- The `partHeader` string `(${i + 1}/${parts.length}) ` of
`sendWhatsAppMessage`, for 1-indexed part `i` of `total`. -/
def partHeader (i total : Nat) : List Char :=
  [ '(' ] ++ natToChars i ++ [ '/' ] ++ natToChars total ++ [ ')', ' ' ]

/-- The sequence of message bodies `sendWhatsAppMessage(messageText, ...)`
hands to the transport: a single unmodified body when it fits in
`MAX_LENGTH`, otherwise the chunks of `splitMessageIntelligently`, each
prefixed with `partHeader` exactly when more than one part was produced.
The Twilio calls, logging and inter-part delay carry no data and are not
modelled. -/
def sendWhatsAppMessageBodies (messageText : List Char) (maxLen : Nat) :
    Option (List (List Char)) :=
  if messageText.length ≤ maxLen then some [messageText]
  else
    (splitMessageIntelligently messageText maxLen).map (fun parts =>
      parts.enum.map (fun p =>
        (if parts.length > 1 then partHeader (p.1 + 1) parts.length else []) ++ p.2))

/-! ### Round-trip predicates for the segmenter -/

/-- `body` is exactly the chunks in order, with exactly one whitespace-only
separator at each internal boundary and nothing else — the round-trip law as
the specification states it (separators only at split boundaries). -/
def reconstructsStrict : List (List Char) → List Char → Prop
  | [], body => body = []
  | [c], body => body = c
  | c :: cs, body => ∃ w rest, wsOnly w = true ∧ body = c ++ w ++ rest ∧ reconstructsStrict cs rest

/-- `body` is the chunks in order interleaved with whitespace-only filler,
filler being allowed before the first chunk and after the last one as well
as at each boundary. -/
def reconstructs : List (List Char) → List Char → Prop
  | [], body => wsOnly body = true
  | c :: cs, body => ∃ w rest, wsOnly w = true ∧ body = w ++ c ++ rest ∧ reconstructs cs rest

/-! ### The preference resolver (`UserManager`) -/

/-- The three selectable languages. -/
inductive Language
  | english
  | hindi
  | gujarati
deriving DecidableEq

/-- The `language_preference` column: `'pending'` or a selected language. -/
inductive StoredPref
  | pending
  | lang : Language → StoredPref
deriving DecidableEq

/-- The row of the `users` table for one identifier.  The two timestamp
columns (`created_at`, `last_used`) hold wall-clock times and are not
modelled; `phone_number` is the key under which the row is carried. -/
structure UserRec where
  pref : StoredPref
  messageCount : Nat
deriving DecidableEq

/-- The persistence state visible to one resolver call: the row stored for
the given identifier, if any. -/
abbrev Store := Option UserRec

/-- One SQL statement issued by the resolver, in issue order. -/
inductive DbOp
  | get
  | create
  | updateActivity
  | setLang : Language → DbOp
deriving DecidableEq

/-- `op` is a write (INSERT or UPDATE) rather than a SELECT. -/
def isWrite : DbOp → Bool
  | DbOp.get => false
  | _ => true

/-- Which of the four SQLite statements fail (their callback receives an
error) during this resolver call. -/
structure DbFaults where
  getFails : Bool
  createFails : Bool
  activityFails : Bool
  setLangFails : Bool
deriving DecidableEq

/-- The fault-free persistence layer. -/
def noFaults : DbFaults := ⟨false, false, false, false⟩

/-- JavaScript `toLowerCase` restricted to the code points compared against
the language command tokens: ASCII letters are lowered, everything else is
unchanged (as full Unicode lowercasing also leaves the relevant inputs). -/
def jsToLower (c : Char) : Char :=
  if 'A' ≤ c && c ≤ 'Z' then Char.ofNat (c.toNat + 32) else c

/-- `message.trim().toLowerCase()` as computed by `isLanguageCommand` and
`parseLanguage`. -/
def cleanMessage (message : String) : List Char :=
  (jsTrim message.toList).map jsToLower

/-- The fixed token list of `UserManager.isLanguageCommand`. -/
def languageCommands : List (List Char) :=
  [("english").toList, ("hindi").toList, ("gujarati").toList,
   ("eng").toList, ("hin").toList, ("guj").toList]

/-- `UserManager.isLanguageCommand`. -/
def isLanguageCommand (message : String) : Bool :=
  languageCommands.contains (cleanMessage message)

/-- `UserManager.parseLanguage`. -/
def parseLanguage (message : String) : Option Language :=
  if cleanMessage message = ("english").toList ∨ cleanMessage message = ("eng").toList then
    some Language.english
  else if cleanMessage message = ("hindi").toList ∨ cleanMessage message = ("hin").toList then
    some Language.hindi
  else if cleanMessage message = ("gujarati").toList ∨ cleanMessage message = ("guj").toList then
    some Language.gujarati
  else none

/-- The guarded command parse of `handleLanguagePreference`:
`parseLanguage` is consulted only when `isLanguageCommand` holds, and its
result enters the command branch only when non-null. -/
def parsedCommand (message : String) : Option Language :=
  if isLanguageCommand message then parseLanguage message else none

/-- The confirmation text returned with `isLanguageCommand: true`. -/
def confirmationMessage : Language → String
  | Language.english => "Language set to English! Send any stock name for analysis."
  | Language.hindi => "भाषा हिंदी सेट कर दी गई! विश्लेषण के लिए कोई भी स्टॉक का नाम भेजें।"
  | Language.gujarati => "ભાષા ગુજરાતી સેટ કરવામાં આવી! વિશ્લેષણ માટે કોઈપણ સ્ટોકનું નામ મોકલો."

/-- The onboarding prompt returned when the stored preference is pending. -/
def onboardingPrompt : String :=
  "Welcome! Please choose your language:\n\nSend \"English\" for English\nSend \"Hindi\" for हिंदी\n\n\"English\" भेजें अंग्रेजी के लिए\n\"Hindi\" भेजें हिंदी के लिए"

/-- The prompt returned by the catch block of `handleLanguagePreference`. -/
def fallbackPrompt : String :=
  "Welcome! Please choose your language: English, Hindi or Gujarati"

/-- The object `handleLanguagePreference` resolves with.  The JS objects
omit fields per variant; an omitted boolean reads as falsy and an omitted
`language`/`message` as absent, modelled by `false` / `none`. -/
structure LangResult where
  isLanguageCommand : Bool
  needsLanguagePreference : Bool
  language : Option Language
  message : Option String
deriving DecidableEq

/-- `UserManager.getUserLanguagePreference`: look the user up, lazily create
a pending row for a new identifier, otherwise record the activity; any
persistence error is caught and collapses to `'pending'`.  Returned are the
resolved preference, the row after the call, and the statements issued. -/
def getUserLanguagePreference (f : DbFaults) (st : Store) :
    StoredPref × Store × List DbOp :=
  if f.getFails then (StoredPref.pending, st, [DbOp.get])
  else
    match st with
    | none =>
      if f.createFails then (StoredPref.pending, st, [DbOp.get, DbOp.create])
      else (StoredPref.pending, some ⟨StoredPref.pending, 1⟩, [DbOp.get, DbOp.create])
    | some u =>
      if f.activityFails then (StoredPref.pending, st, [DbOp.get, DbOp.updateActivity])
      else (u.pref, some ⟨u.pref, u.messageCount + 1⟩, [DbOp.get, DbOp.updateActivity])

/-- `UserManager.handleLanguagePreference`: resolve the preference (with its
activity side effect) first, then dispatch on the message.  A language
command stores the chosen language (`setLanguagePreference` updates the row
if present; a failure there is caught and yields the fallback prompt);
otherwise a pending preference requests onboarding and a set preference
proceeds to analysis. -/
def handleLanguagePreference (f : DbFaults) (st : Store) (message : String) :
    LangResult × Store × List DbOp :=
  match parsedCommand message with
  | some language =>
    if f.setLangFails then
      (⟨false, true, none, some fallbackPrompt⟩,
       (getUserLanguagePreference f st).2.1,
       (getUserLanguagePreference f st).2.2 ++ [DbOp.setLang language])
    else
      (⟨true, false, some language, some (confirmationMessage language)⟩,
       ((getUserLanguagePreference f st).2.1).map
         (fun u => ⟨StoredPref.lang language, u.messageCount⟩),
       (getUserLanguagePreference f st).2.2 ++ [DbOp.setLang language])
  | none =>
    match (getUserLanguagePreference f st).1 with
    | StoredPref.pending =>
      (⟨false, true, none, some onboardingPrompt⟩,
       (getUserLanguagePreference f st).2.1,
       (getUserLanguagePreference f st).2.2)
    | StoredPref.lang l =>
      (⟨false, false, some l, none⟩,
       (getUserLanguagePreference f st).2.1,
       (getUserLanguagePreference f st).2.2)

/-! ### Lemmas about trimming -/

theorem length_trimStart_le (s : List Char) : (trimStart s).length ≤ s.length :=
  (List.dropWhile_suffix _).sublist.length_le

theorem length_trimEnd_le (s : List Char) : (trimEnd s).length ≤ s.length := by
  unfold trimEnd
  rw [List.length_reverse]
  calc (s.reverse.dropWhile isJsWhitespace).length
      ≤ s.reverse.length := (List.dropWhile_suffix _).sublist.length_le
    _ = s.length := List.length_reverse s

theorem length_jsTrim_le_trimEnd (s : List Char) :
    (jsTrim s).length ≤ (trimEnd s).length :=
  length_trimStart_le _

theorem length_jsTrim_le (s : List Char) : (jsTrim s).length ≤ s.length :=
  le_trans (length_jsTrim_le_trimEnd s) (length_trimEnd_le s)

theorem trimEnd_append_length_le (s t : List Char) :
    (trimEnd (s ++ t)).length ≤ s.length + (trimEnd t).length := by
  unfold trimEnd
  rw [List.length_reverse, List.length_reverse, List.reverse_append, List.dropWhile_append]
  have h1 : (s.reverse.dropWhile isJsWhitespace).length ≤ s.length := by
    calc (s.reverse.dropWhile isJsWhitespace).length
        ≤ s.reverse.length := (List.dropWhile_suffix _).sublist.length_le
      _ = s.length := List.length_reverse s
  by_cases h : t.reverse.dropWhile isJsWhitespace = []
  · rw [h]
    simp only [List.isEmpty_nil, if_true]
    omega
  · rw [if_neg (by simp [List.isEmpty_iff, h])]
    rw [List.length_append, List.length_reverse]
    omega

theorem trimEnd_decomp (s : List Char) :
    ∃ t, wsOnly t = true ∧ s = trimEnd s ++ t := by
  refine ⟨(s.reverse.takeWhile isJsWhitespace).reverse, ?_, ?_⟩
  · rw [wsOnly, List.all_eq_true]
    intro x hx
    exact List.mem_takeWhile_imp (List.mem_reverse.mp hx)
  · unfold trimEnd
    calc s = s.reverse.reverse := (List.reverse_reverse s).symm
      _ = (s.reverse.takeWhile isJsWhitespace ++ s.reverse.dropWhile isJsWhitespace).reverse := by
          rw [List.takeWhile_append_dropWhile]
      _ = (s.reverse.dropWhile isJsWhitespace).reverse ++
            (s.reverse.takeWhile isJsWhitespace).reverse := by
          rw [List.reverse_append]

theorem trimStart_decomp (s : List Char) :
    ∃ w, wsOnly w = true ∧ s = w ++ trimStart s := by
  refine ⟨s.takeWhile isJsWhitespace, ?_, ?_⟩
  · rw [wsOnly, List.all_eq_true]
    intro x hx
    exact List.mem_takeWhile_imp hx
  · exact (List.takeWhile_append_dropWhile _ _).symm

theorem jsTrim_decomp (s : List Char) :
    ∃ w t, wsOnly w = true ∧ wsOnly t = true ∧ s = w ++ jsTrim s ++ t := by
  obtain ⟨t, ht, hs⟩ := trimEnd_decomp s
  obtain ⟨w, hw, hw2⟩ := trimStart_decomp (trimEnd s)
  refine ⟨w, t, hw, ht, ?_⟩
  calc s = trimEnd s ++ t := hs
    _ = (w ++ trimStart (trimEnd s)) ++ t := by rw [← hw2]
    _ = w ++ jsTrim s ++ t := by rw [jsTrim, List.append_assoc]

theorem dropWhile_head_false {p : Char → Bool} :
    ∀ {l : List Char} {c : Char} {t : List Char}, l.dropWhile p = c :: t → p c = false := by
  intro l
  induction l with
  | nil => intro c t h; exact absurd h (by simp)
  | cons a l ih =>
    intro c t h
    rw [List.dropWhile_cons] at h
    by_cases hpa : p a = true
    · rw [if_pos hpa] at h
      exact ih h
    · rw [if_neg hpa] at h
      cases h
      exact Bool.eq_false_iff.mpr hpa

theorem trimEnd_prefix (s : List Char) : trimEnd s <+: s := by
  obtain ⟨t, _, hs⟩ := trimEnd_decomp s
  exact ⟨t, hs.symm⟩

theorem trimEnd_eq_nil_iff {s : List Char} :
    trimEnd s = [] ↔ ∀ c ∈ s, isJsWhitespace c = true := by
  unfold trimEnd
  rw [List.reverse_eq_nil_iff, List.dropWhile_eq_nil_iff]
  constructor
  · intro h c hc
    exact h c (List.mem_reverse.mpr hc)
  · intro h c hc
    exact h c (List.mem_reverse.mp hc)

theorem jsTrim_nil : jsTrim [] = [] := rfl

theorem jsTrim_jsTrim_ne_nil {s : List Char} (h : jsTrim s ≠ []) :
    jsTrim (jsTrim s) ≠ [] := by
  obtain ⟨c, t, hct⟩ : ∃ c t, jsTrim s = c :: t := by
    cases hy : jsTrim s with
    | nil => exact absurd hy h
    | cons c t => exact ⟨c, t, rfl⟩
  have hct' : (trimEnd s).dropWhile isJsWhitespace = c :: t := hct
  have hc : isJsWhitespace c = false := dropWhile_head_false hct'
  intro hnil
  have hnil' : (trimEnd (jsTrim s)).dropWhile isJsWhitespace = [] := hnil
  have hall : ∀ x ∈ trimEnd (jsTrim s), isJsWhitespace x = true :=
    List.dropWhile_eq_nil_iff.mp hnil'
  cases hte : trimEnd (jsTrim s) with
  | nil =>
    have := trimEnd_eq_nil_iff.mp hte c (by rw [hct]; exact List.mem_cons_self _ _)
    rw [hc] at this
    exact Bool.noConfusion this
  | cons c' t' =>
    obtain ⟨u, hu⟩ := trimEnd_prefix (jsTrim s)
    rw [hte, hct, List.cons_append] at hu
    have hcc : c' = c := (List.cons.injEq _ _ _ _ ▸ hu).1
    have := hall c' (by rw [hte]; exact List.mem_cons_self _ _)
    rw [hcc, hc] at this
    exact Bool.noConfusion this

/-! ### Lemmas about the segmenter -/

theorem lastIndexOf_inv {s pat : List Char} {pos k : Nat}
    (h : lastIndexOf s pat pos = some k) :
    k ≤ pos ∧ pat.isPrefixOf (s.drop k) = true := by
  have h1 : occursAt s pat k = true := List.find?_some h
  have h2 := List.mem_of_find?_eq_some h
  rw [List.mem_reverse, List.mem_range] at h2
  exact ⟨Nat.lt_succ_iff.mp h2, h1⟩

theorem findBreak_inv :
    ∀ {bps : List (List Char)} {rem : List Char} {m si : Nat},
      findBreak bps rem m = some si →
      ∃ bp, bp ∈ bps ∧ ∃ k, lastIndexOf rem bp m = some k ∧ 10 * k > 7 * m ∧
        si = k + bp.length := by
  intro bps
  induction bps with
  | nil => intro rem m si h; exact absurd h (by rw [findBreak]; exact Option.noConfusion)
  | cons bp rest ih =>
    intro rem m si h
    rw [findBreak] at h
    cases hL : lastIndexOf rem bp m with
    | none =>
      simp only [hL] at h
      obtain ⟨bp', h1, h2⟩ := ih h
      exact ⟨bp', List.mem_cons_of_mem _ h1, h2⟩
    | some k =>
      simp only [hL] at h
      by_cases hc : 10 * k > 7 * m
      · rw [if_pos hc] at h
        injection h with h
        exact ⟨bp, List.mem_cons_self _ _, k, hL, hc, h.symm⟩
      · rw [if_neg hc] at h
        obtain ⟨bp', h1, h2⟩ := ih h
        exact ⟨bp', List.mem_cons_of_mem _ h1, h2⟩

theorem breakPoints_ne_nil : ∀ bp ∈ breakPoints, bp ≠ [] := by decide

theorem breakPoints_trimEnd_le : ∀ bp ∈ breakPoints, (trimEnd bp).length ≤ 5 := by decide

theorem chooseSplitIndex_pos {rem : List Char} {m : Nat} (hm : 1 ≤ m) :
    1 ≤ chooseSplitIndex rem m := by
  unfold chooseSplitIndex
  cases h : findBreak breakPoints rem m with
  | none => exact hm
  | some si =>
    show 1 ≤ si
    obtain ⟨bp, hbp, k, _, _, hsi⟩ := findBreak_inv h
    have h1 : bp ≠ [] := breakPoints_ne_nil bp hbp
    have h2 : 1 ≤ bp.length := List.length_pos.mpr h1
    omega

theorem take_occurs_decomp {rem bp : List Char} {k : Nat}
    (hne : bp ≠ []) (hocc : bp.isPrefixOf (rem.drop k) = true) :
    rem.take (k + bp.length) = rem.take k ++ bp ∧ (rem.take k).length = k := by
  obtain ⟨u, hu⟩ := List.isPrefixOf_iff_prefix.mp hocc
  have hk : k < rem.length := by
    by_contra hk
    push_neg at hk
    rw [List.drop_eq_nil_of_le hk] at hu
    exact hne (List.append_eq_nil.mp hu).1
  have hlen : (rem.take k).length = k := by
    rw [List.length_take]
    omega
  refine ⟨?_, hlen⟩
  have hrem : rem = rem.take k ++ (bp ++ u) := by
    rw [hu]
    exact (List.take_append_drop k rem).symm
  conv_lhs => rw [hrem]
  rw [List.take_append_eq_append_take, hlen, List.take_take,
    Nat.min_eq_right (Nat.le_add_right k bp.length)]
  have h2 : k + bp.length - k = bp.length := by omega
  rw [h2, List.take_left]

theorem splitLoop_of_le {m : Nat} (fuel : Nat) {rem : List Char}
    (h : ¬ rem.length > m) :
    splitLoop m fuel rem = if rem.length > 0 then some [rem] else some [] := by
  cases fuel with
  | zero => rw [splitLoop, if_neg h]
  | succ f => rw [splitLoop, if_neg h]

theorem splitLoop_parts_le_one {m fuel : Nat} {rem : List Char} {parts : List (List Char)}
    (hle : ¬ rem.length > m) (h : splitLoop m fuel rem = some parts) :
    parts.length ≤ 1 := by
  rw [splitLoop_of_le fuel hle] at h
  by_cases h0 : rem.length > 0
  · rw [if_pos h0] at h
    injection h with h
    rw [← h]
    exact le_refl _
  · rw [if_neg h0] at h
    injection h with h
    rw [← h]
    exact Nat.zero_le _

theorem splitLoop_isSome {m : Nat} (hm : 1 ≤ m) :
    ∀ (fuel : Nat) (rem : List Char), rem.length ≤ fuel →
      (splitLoop m fuel rem).isSome = true := by
  intro fuel
  induction fuel with
  | zero =>
    intro rem h
    rw [splitLoop_of_le 0 (by omega)]
    by_cases h0 : rem.length > 0
    · rw [if_pos h0]; rfl
    · rw [if_neg h0]; rfl
  | succ f ih =>
    intro rem h
    by_cases hg : rem.length > m
    · rw [splitLoop, if_pos hg]
      have hsi := @chooseSplitIndex_pos rem m hm
      have hlen : (jsTrim (rem.drop (chooseSplitIndex rem m))).length ≤ f := by
        have h1 := length_jsTrim_le (rem.drop (chooseSplitIndex rem m))
        rw [List.length_drop] at h1
        omega
      have h2 := ih _ hlen
      cases hres : splitLoop m f (jsTrim (rem.drop (chooseSplitIndex rem m))) with
      | none => rw [hres] at h2; exact absurd h2 (by simp)
      | some ps => rfl
    · rw [splitLoop_of_le _ hg]
      by_cases h0 : rem.length > 0
      · rw [if_pos h0]; rfl
      · rw [if_neg h0]; rfl

theorem chunk_head_le {rem : List Char} {m : Nat} :
    (jsTrim (rem.take (chooseSplitIndex rem m))).length ≤ m + 5 := by
  unfold chooseSplitIndex
  cases h : findBreak breakPoints rem m with
  | none =>
    show (jsTrim (rem.take m)).length ≤ m + 5
    have h1 := length_jsTrim_le (rem.take m)
    have h2 : (rem.take m).length ≤ m := by rw [List.length_take]; omega
    omega
  | some si =>
    show (jsTrim (rem.take si)).length ≤ m + 5
    obtain ⟨bp, hbp, k, hL, _, hsi⟩ := findBreak_inv h
    obtain ⟨hk, hocc⟩ := lastIndexOf_inv hL
    obtain ⟨hdecomp, hlen⟩ := take_occurs_decomp (breakPoints_ne_nil bp hbp) hocc
    subst hsi
    rw [hdecomp]
    calc (jsTrim (rem.take k ++ bp)).length
        ≤ (trimEnd (rem.take k ++ bp)).length := length_jsTrim_le_trimEnd _
      _ ≤ (rem.take k).length + (trimEnd bp).length := trimEnd_append_length_le _ _
      _ ≤ m + 5 := by
          have h5 := breakPoints_trimEnd_le bp hbp
          omega

theorem splitLoop_chunk_le {m : Nat} :
    ∀ (fuel : Nat) (rem : List Char) (parts : List (List Char)),
      splitLoop m fuel rem = some parts → ∀ p ∈ parts, p.length ≤ m + 5 := by
  intro fuel
  induction fuel with
  | zero =>
    intro rem parts h p hp
    by_cases hg : rem.length > m
    · rw [splitLoop, if_pos hg] at h
      exact Option.noConfusion h
    · rw [splitLoop_of_le 0 hg] at h
      by_cases h0 : rem.length > 0
      · rw [if_pos h0] at h
        injection h with h
        rw [← h] at hp
        rcases List.mem_singleton.mp hp with rfl
        omega
      · rw [if_neg h0] at h
        injection h with h
        rw [← h] at hp
        exact absurd hp (List.not_mem_nil p)
  | succ f ih =>
    intro rem parts h p hp
    by_cases hg : rem.length > m
    · rw [splitLoop, if_pos hg] at h
      cases hres : splitLoop m f (jsTrim (rem.drop (chooseSplitIndex rem m))) with
      | none => rw [hres] at h; exact Option.noConfusion h
      | some rest =>
        rw [hres] at h
        injection h with h
        rw [← h] at hp
        rcases List.mem_cons.mp hp with rfl | hp2
        · exact chunk_head_le
        · exact ih _ _ hres p hp2
    · rw [splitLoop_of_le _ hg] at h
      by_cases h0 : rem.length > 0
      · rw [if_pos h0] at h
        injection h with h
        rw [← h] at hp
        rcases List.mem_singleton.mp hp with rfl
        omega
      · rw [if_neg h0] at h
        injection h with h
        rw [← h] at hp
        exact absurd hp (List.not_mem_nil p)

/-! ### Divergence at a zero chunk limit -/

theorem findBreak_zero (bps : List (List Char)) (rem : List Char) :
    findBreak bps rem 0 = none := by
  induction bps with
  | nil => rw [findBreak]
  | cons bp rest ih =>
    rw [findBreak]
    cases hL : lastIndexOf rem bp 0 with
    | none => exact ih
    | some k =>
      have hk : k ≤ 0 := (lastIndexOf_inv hL).1
      have hc : ¬ 10 * k > 7 * 0 := by omega
      show (if 10 * k > 7 * 0 then some (k + bp.length) else findBreak rest rem 0) = none
      rw [if_neg hc]
      exact ih

theorem chooseSplitIndex_zero (rem : List Char) : chooseSplitIndex rem 0 = 0 := by
  unfold chooseSplitIndex
  rw [findBreak_zero]

theorem splitLoop_zero_diverges :
    ∀ (fuel : Nat) (rem : List Char), jsTrim rem ≠ [] → splitLoop 0 fuel rem = none := by
  intro fuel
  induction fuel with
  | zero =>
    intro rem h
    have hne : rem ≠ [] := fun hr => h (by rw [hr]; rfl)
    rw [splitLoop, if_pos (List.length_pos.mpr hne)]
  | succ f ih =>
    intro rem h
    have hne : rem ≠ [] := fun hr => h (by rw [hr]; rfl)
    rw [splitLoop, if_pos (List.length_pos.mpr hne), chooseSplitIndex_zero, List.drop_zero,
      ih (jsTrim rem) (jsTrim_jsTrim_ne_nil h)]
    rfl

/-! ### The round-trip invariant -/

theorem wsOnly_append {a b : List Char} (ha : wsOnly a = true) (hb : wsOnly b = true) :
    wsOnly (a ++ b) = true := by
  unfold wsOnly at *
  rw [List.all_append, ha, hb]
  rfl

theorem reconstructs_append_ws {cs : List (List Char)} :
    ∀ {r t : List Char}, reconstructs cs r → wsOnly t = true → reconstructs cs (r ++ t) := by
  induction cs with
  | nil =>
    intro r t hr ht
    exact wsOnly_append hr ht
  | cons c cs ih =>
    intro r t hr ht
    obtain ⟨w, rest, hw, hr2, hrec⟩ := hr
    refine ⟨w, rest ++ t, hw, ?_, ih hrec ht⟩
    rw [hr2]
    simp [List.append_assoc]

theorem reconstructs_ws_append {cs : List (List Char)} {r w t : List Char}
    (hr : reconstructs cs r) (hw : wsOnly w = true) (ht : wsOnly t = true) :
    reconstructs cs (w ++ r ++ t) := by
  cases cs with
  | nil => exact wsOnly_append (wsOnly_append hw hr) ht
  | cons c cs =>
    obtain ⟨w', rest, hw', hr2, hrec⟩ := hr
    refine ⟨w ++ w', rest ++ t, wsOnly_append hw hw', ?_, reconstructs_append_ws hrec ht⟩
    rw [hr2]
    simp [List.append_assoc]

theorem splitLoop_reconstructs {m : Nat} :
    ∀ (fuel : Nat) (rem : List Char) (parts : List (List Char)),
      splitLoop m fuel rem = some parts → reconstructs parts rem := by
  intro fuel
  induction fuel with
  | zero =>
    intro rem parts h
    by_cases hg : rem.length > m
    · rw [splitLoop, if_pos hg] at h
      exact Option.noConfusion h
    · rw [splitLoop_of_le 0 hg] at h
      by_cases h0 : rem.length > 0
      · rw [if_pos h0] at h
        injection h with h
        rw [← h]
        exact ⟨[], [], rfl, by simp, rfl⟩
      · rw [if_neg h0] at h
        injection h with h
        rw [← h]
        have : rem = [] := List.length_eq_zero.mp (by omega)
        rw [this]
        rfl
  | succ f ih =>
    intro rem parts h
    by_cases hg : rem.length > m
    · rw [splitLoop, if_pos hg] at h
      cases hres : splitLoop m f (jsTrim (rem.drop (chooseSplitIndex rem m))) with
      | none => rw [hres] at h; exact Option.noConfusion h
      | some rest =>
        rw [hres] at h
        injection h with h
        rw [← h]
        obtain ⟨w1, t1, hw1, ht1, hd1⟩ := jsTrim_decomp (rem.take (chooseSplitIndex rem m))
        obtain ⟨w2, t2, hw2, ht2, hd2⟩ := jsTrim_decomp (rem.drop (chooseSplitIndex rem m))
        have key : rem = w1 ++ jsTrim (rem.take (chooseSplitIndex rem m)) ++
            (t1 ++ rem.drop (chooseSplitIndex rem m)) := by
          conv_lhs => rw [← List.take_append_drop (chooseSplitIndex rem m) rem]
          conv_lhs => rw [hd1]
          simp [List.append_assoc]
        refine ⟨w1, t1 ++ rem.drop (chooseSplitIndex rem m), hw1, key, ?_⟩
        rw [hd2]
        have hassoc : t1 ++ (w2 ++ jsTrim (rem.drop (chooseSplitIndex rem m)) ++ t2) =
            (t1 ++ w2) ++ jsTrim (rem.drop (chooseSplitIndex rem m)) ++ t2 := by
          simp [List.append_assoc]
        rw [hassoc]
        exact reconstructs_ws_append (ih _ _ hres) (wsOnly_append ht1 hw2) ht2
    · rw [splitLoop_of_le _ hg] at h
      by_cases h0 : rem.length > 0
      · rw [if_pos h0] at h
        injection h with h
        rw [← h]
        exact ⟨[], [], rfl, by simp, rfl⟩
      · rw [if_neg h0] at h
        injection h with h
        rw [← h]
        have : rem = [] := List.length_eq_zero.mp (by omega)
        rw [this]
        rfl

/-! ### Claim C1: chunk size bound -/

/-- C1 (counterexample): the claim "each chunk produced by the segmenter has
length ≤ maxChunkSize" fails: for body `"aaaaaaaaaa. bbbbbbbbbbbb"` and
`maxChunkSize = 10`, the `". "` marker is found starting exactly at index 10
(`lastIndexOf` accepts a match that begins at the limit and extends past it),
so the first emitted chunk is `"aaaaaaaaaa."` of length 11 > 10. -/
theorem C1_counterexample :
    (splitMessageIntelligently (("aaaaaaaaaa. bbbbbbbbbbbb").toList) 10).getD [] =
      [("aaaaaaaaaa.").toList, ("bbbbbbbbbb").toList, ("bb").toList] ∧
    ¬ (("aaaaaaaaaa.").toList).length ≤ 10 :=
  ⟨by decide, by decide⟩

/-- C1 (amended): for every body and every `maxChunkSize ≥ 1`, each chunk the
segmenter emits has length at most `maxChunkSize + 5`: a break marker may
start at or before the limit yet extend beyond it, and after the trailing
whitespace is trimmed, the longest marker (`"\n\n---\n\n"`) can leave at most
the 5 characters `"\n\n---"` past the limit. -/
theorem C1_chunk_size_bound (text : List Char) (m : Nat) (parts : List (List Char))
    (p : List Char) (hm : 1 ≤ m) (h : splitMessageIntelligently text m = some parts)
    (hp : p ∈ parts) : p.length ≤ m + 5 :=
  splitLoop_chunk_le text.length text parts h p hp

/-- C1 (witness): the amended bound applied at `text = "ab"`, `m = 1`. -/
theorem C1_chunk_size_bound_witness : (['a'] : List Char).length ≤ 1 + 5 :=
  C1_chunk_size_bound ['a', 'b'] 1 [['a'], ['b']] ['a'] (by decide) (by rfl) (by decide)

/-! ### Claim C2: round-trip -/

/-- C2 (counterexample): re-joining the chunks with one separator per split
boundary cannot reproduce a body with leading whitespace: `" aab"` with
`maxChunkSize = 2` splits into `["a", "ab"]`, and no interleaving
`"a" ++ w ++ "ab"` starts with the space that the first `.trim()` removed. -/
theorem C2_counterexample :
    splitMessageIntelligently ([' ', 'a', 'a', 'b']) 2 = some [['a'], ['a', 'b']] ∧
    ¬ reconstructsStrict [['a'], ['a', 'b']] ([' ', 'a', 'a', 'b']) := by
  refine ⟨by decide, ?_⟩
  rintro ⟨w, rest, hw, heq, hrest⟩
  have h1 : some ' ' = some 'a' := by
    have h2 := congrArg List.head? heq
    simpa using h2
  exact absurd (Option.some.inj h1) (by decide)

/-- C2 (amended): for every body and every `maxChunkSize ≥ 1`, the chunks
reproduce the body once whitespace-only filler is also allowed before the
first chunk and after the last one (the segmenter trims the ends of the body,
not only the split boundaries): the body is exactly the chunks in order,
interleaved with whitespace-only strings; in particular no non-whitespace
character is added, duplicated, or dropped. -/
theorem C2_roundtrip (text : List Char) (m : Nat) (parts : List (List Char))
    (hm : 1 ≤ m) (h : splitMessageIntelligently text m = some parts) :
    reconstructs parts text :=
  splitLoop_reconstructs text.length text parts h

/-- C2 (witness): the amended round trip applied at `text = " aab"`, `m = 2`. -/
theorem C2_roundtrip_witness : reconstructs [['a'], ['a', 'b']] ([' ', 'a', 'a', 'b']) :=
  C2_roundtrip [' ', 'a', 'a', 'b'] 2 [['a'], ['a', 'b']] (by decide) (by rfl)

/-! ### Claim C3: behaviour at a non-positive chunk size -/

/-- C3 (counterexample): with `maxChunkSize = 0` the segmenter does not
signal any error — the source contains no such check — and on the body
`"ab"` its while loop never terminates (no fuel bound suffices), refuting
"it does not loop". -/
theorem C3_counterexample : divergesAt (['a', 'b']) 0 := fun fuel =>
  splitLoop_zero_diverges fuel ['a', 'b'] (by decide)

/-- C3 (amended): invoked with `maxChunkSize = 0`, the segmenter signals no
`InvalidArgument` error; on every body whose trimmed text is non-empty the
splitting loop runs forever (each iteration chooses split index 0 and makes
no progress), so no result is ever returned. -/
theorem C3_zero_limit_loops (text : List Char) (h : jsTrim text ≠ []) :
    divergesAt text 0 := fun fuel =>
  splitLoop_zero_diverges fuel text h

/-- C3 (witness): the amended statement applied at `text = "cd"`. -/
theorem C3_zero_limit_loops_witness :
    jsTrim (['c', 'd']) ≠ [] ∧ divergesAt (['c', 'd']) 0 :=
  ⟨by decide, C3_zero_limit_loops ['c', 'd'] (by decide)⟩

/-! ### Claim C4: persistence writes per resolver call -/

/-- C4 (counterexample): the claim "exactly one create-or-update per call,
including when the message is a language command" fails: a fresh identifier
sending `"english"` causes two writes — the lazy `createUser` INSERT followed
by the `setLanguagePreference` UPDATE. -/
theorem C4_counterexample :
    (((handleLanguagePreference noFaults none ("english")).2.2).filter isWrite).length = 2 ∧
    ¬ (((handleLanguagePreference noFaults none ("english")).2.2).filter isWrite).length = 1 :=
  ⟨by decide, by decide⟩

/-- C4 (amended): on a fault-free persistence layer, every resolver call
issues exactly the SELECT followed by one activity create-or-update (INSERT
for a new identifier, activity UPDATE otherwise) — before the
command/PENDING branching — and, exactly when the message is a language
command, one additional preference UPDATE afterwards; so command calls
perform two writes, all other calls exactly one. -/
theorem C4_write_trace (st : Store) (msg : String) :
    (handleLanguagePreference noFaults st msg).2.2 =
      [DbOp.get, match st with | none => DbOp.create | some _ => DbOp.updateActivity] ++
      (match parsedCommand msg with | some l => [DbOp.setLang l] | none => []) := by
  cases hp : parsedCommand msg with
  | some l =>
    cases st <;> simp [handleLanguagePreference, getUserLanguagePreference, noFaults, hp]
  | none =>
    cases st with
    | none => simp [handleLanguagePreference, getUserLanguagePreference, noFaults, hp]
    | some u =>
      obtain ⟨pref, cnt⟩ := u
      cases pref <;>
        simp [handleLanguagePreference, getUserLanguagePreference, noFaults, hp]

/-! ### Claim C5: persistence failures never propagate -/

/-- C5 (counterexample): the claim "any persistence failure yields the
NEEDS_ONBOARDING disposition with a default prompt" fails: when the lookup
fails but the preference UPDATE succeeds, the message `"english"` still
yields the LANGUAGE_SET disposition (`isLanguageCommand: true`), not
onboarding. -/
theorem C5_counterexample :
    (handleLanguagePreference ⟨true, false, false, false⟩ none ("english")).1 =
      ⟨true, false, some Language.english, some (confirmationMessage Language.english)⟩ ∧
    (handleLanguagePreference ⟨true, false, false, false⟩ none
      ("english")).1.needsLanguagePreference = false :=
  ⟨by decide, by decide⟩

/-- C5 (amended): persistence failures never escape the resolver, and it
degrades as follows: for a non-command message, a failing lookup, a failing
lazy create, or a failing activity update makes the stored preference read
as PENDING, so the call returns the onboarding disposition with the standard
prompt; for a language command, a failing preference write is caught and
returns the onboarding disposition with the default catch-block prompt,
while a succeeding preference write still returns LANGUAGE_SET. -/
theorem C5_failure_degrades (f : DbFaults) (st : Store) (msg : String) :
    (parsedCommand msg = none →
      (f.getFails = true ∨ (st = none ∧ f.createFails = true) ∨
        ((∃ u, st = some u) ∧ f.activityFails = true)) →
      (handleLanguagePreference f st msg).1 = ⟨false, true, none, some onboardingPrompt⟩) ∧
    (∀ l, parsedCommand msg = some l → f.setLangFails = true →
      (handleLanguagePreference f st msg).1 = ⟨false, true, none, some fallbackPrompt⟩) ∧
    (∀ l, parsedCommand msg = some l → f.setLangFails = false →
      (handleLanguagePreference f st msg).1 =
        ⟨true, false, some l, some (confirmationMessage l)⟩) := by
  refine ⟨?_, ?_, ?_⟩
  · intro hp hf
    have hpend : (getUserLanguagePreference f st).1 = StoredPref.pending := by
      rcases hf with hg | ⟨h1, _⟩ | ⟨⟨u, h1⟩, h2⟩
      · simp [getUserLanguagePreference, hg]
      · subst h1
        by_cases hg : f.getFails <;> by_cases hc : f.createFails <;>
          simp [getUserLanguagePreference, hg, hc]
      · subst h1
        by_cases hg : f.getFails <;> simp [getUserLanguagePreference, hg, h2]
    simp [handleLanguagePreference, hp, hpend]
  · intro l hp hsf
    simp [handleLanguagePreference, hp, hsf]
  · intro l hp hsf
    simp [handleLanguagePreference, hp, hsf]

/-- C5 (witness): the amended statement applied with a failing lookup, a
fresh identifier and the non-command message `"TCS"`. -/
theorem C5_failure_degrades_witness :
    (handleLanguagePreference ⟨true, false, false, false⟩ none ("TCS")).1 =
      ⟨false, true, none, some onboardingPrompt⟩ :=
  (C5_failure_degrades ⟨true, false, false, false⟩ none ("TCS")).1 (by decide) (Or.inl rfl)

/-! ### Claim C6: onboarding gate for a new identifier -/

/-- C6: a brand-new identifier (no stored row) sending a message that is not
a language command gets the NEEDS_ONBOARDING disposition, and the stored
preference afterwards is the freshly created PENDING row (with
`message_count = 1`); the issued statements are the SELECT and the INSERT. -/
theorem C6_onboarding_gate (msg : String) (h : isLanguageCommand msg = false) :
    handleLanguagePreference noFaults none msg =
      (⟨false, true, none, some onboardingPrompt⟩, some ⟨StoredPref.pending, 1⟩,
        [DbOp.get, DbOp.create]) := by
  have hp : parsedCommand msg = none := by simp [parsedCommand, h]
  simp [handleLanguagePreference, hp, getUserLanguagePreference, noFaults]

/-- C6 (witness): the onboarding gate applied at the message `"TCS"`. -/
theorem C6_onboarding_gate_witness :
    handleLanguagePreference noFaults none ("TCS") =
      (⟨false, true, none, some onboardingPrompt⟩, some ⟨StoredPref.pending, 1⟩,
        [DbOp.get, DbOp.create]) :=
  C6_onboarding_gate ("TCS") (by decide)

/-! ### Claim C7: single-chunk no-op -/

/-- C7 (counterexample): the claim "every body with length ≤ maxChunkSize
yields exactly `[body]`" fails at the empty body: the segmenter returns the
empty sequence, not `[""]`. -/
theorem C7_counterexample :
    splitMessageIntelligently ([] : List Char) 1 = some [] ∧
    splitMessageIntelligently ([] : List Char) 1 ≠ some [([] : List Char)] :=
  ⟨by decide, by decide⟩

/-- C7 (amended): for every non-empty body with `body.length ≤ maxChunkSize`
(`maxChunkSize > 0`), the segmenter returns exactly `[body]`, and the
outbound delivery sends the single body with no ordinal prefix. -/
theorem C7_single_chunk (body : List Char) (m : Nat) (hm : 0 < m)
    (hne : body ≠ []) (hle : body.length ≤ m) :
    splitMessageIntelligently body m = some [body] ∧
    sendWhatsAppMessageBodies body m = some [body] := by
  have hsplit : splitMessageIntelligently body m = some [body] := by
    unfold splitMessageIntelligently
    rw [splitLoop_of_le body.length (by omega), if_pos (List.length_pos.mpr hne)]
  exact ⟨hsplit, by rw [sendWhatsAppMessageBodies, if_pos hle]⟩

/-- C7 (witness): the amended single-chunk law applied at `body = "hi"`,
`maxChunkSize = 5`. -/
theorem C7_single_chunk_witness :
    splitMessageIntelligently (("hi").toList) 5 = some [("hi").toList] ∧
    sendWhatsAppMessageBodies (("hi").toList) 5 = some [("hi").toList] :=
  C7_single_chunk (("hi").toList) 5 (by decide) (by decide) (by decide)

/-! ### Claim C8: ordinal part headers -/

/-- C8: whenever segmentation yields `n > 1` chunks, the outbound delivery
prefixes chunk `i` (1-indexed) with exactly `(i/n) `, using the same total
`n = parts.length` for every chunk. -/
theorem C8_part_headers (text : List Char) (m : Nat) (parts : List (List Char))
    (h : splitMessageIntelligently text m = some parts) (h1 : 1 < parts.length) :
    sendWhatsAppMessageBodies text m =
      some (parts.enum.map (fun p => partHeader (p.1 + 1) parts.length ++ p.2)) := by
  have hlen : ¬ text.length ≤ m := by
    intro hle
    have h2 := @splitLoop_parts_le_one m text.length text parts (by omega) h
    omega
  rw [sendWhatsAppMessageBodies, if_neg hlen, h]
  simp [h1]

/-- C8 (witness): the header law applied at `text = "ab"`, `m = 1`, where the
two chunks are sent as `(1/2) a` and `(2/2) b`. -/
theorem C8_part_headers_witness :
    sendWhatsAppMessageBodies (['a', 'b']) 1 =
      some ((([['a'], ['b']] : List (List Char))).enum.map
        (fun p => partHeader (p.1 + 1) ([['a'], ['b']] : List (List Char)).length ++ p.2)) :=
  C8_part_headers ['a', 'b'] 1 [['a'], ['b']] (by rfl) (by decide)

/-! ### Claim C9: empty body -/

/-- C9: for every `maxChunkSize > 0`, segmenting the empty body returns the
empty chunk sequence (and in particular returns, rather than erring or
looping). -/
theorem C9_empty_body (m : Nat) (hm : 0 < m) :
    splitMessageIntelligently [] m = some [] := by
  unfold splitMessageIntelligently
  rw [splitLoop_of_le _ (by simp)]
  simp

/-- C9 (witness): the empty-body law applied at `maxChunkSize = 3`. -/
theorem C9_empty_body_witness : splitMessageIntelligently [] 3 = some [] :=
  C9_empty_body 3 (by decide)

/-! ### Claim C10: termination of the splitting loop -/

/-- C10: for every body and every `maxChunkSize ≥ 1`, the splitting loop
terminates — a fuel of `body.length` iterations suffices, because the chosen
split index is always at least 1 (either the positive limit itself, or a
marker position plus the marker's positive length), so each iteration
removes at least one character from the remaining text. -/
theorem C10_terminates (text : List Char) (m : Nat) (hm : 1 ≤ m) :
    (splitMessageIntelligently text m).isSome = true :=
  splitLoop_isSome hm text.length text (le_refl _)

/-- C10 (witness): termination applied at `text = "xyz"`, `m = 1`. -/
theorem C10_terminates_witness :
    (splitMessageIntelligently (['x', 'y', 'z']) 1).isSome = true :=
  C10_terminates ['x', 'y', 'z'] 1 (by decide)

end WhatsAppStockBot
